import Mathlib

/-!
Verification of the chunked multi-stage overlap pipeline of tomocupy-cli
(`tests/work/bq/rec_steps copy.py`, class `GPURecSteps`).

Arrays are modelled as lists of `ℤ` indexed along the chunked axis
(the other axes of the NumPy/CuPy/zarr arrays are orthogonal to every
property considered here, so one list entry stands for one slice of the
array perpendicular to the chunked axis).  Slicing clips at the array
bounds, as NumPy basic slicing does.
-/

/-- Slice `xs[st : st+len]` with NumPy clipping semantics: the result is
shorter than `len` when the range runs past the end of the array. -/
def sliceArr (xs : List ℤ) (st len : ℕ) : List ℤ :=
  (xs.drop st).take len

/-- Write `src` into `dst` starting at position `st`, clipping at the end of
`dst`; positions outside the written range keep their old values.  This is
the effect of an assignment into the NumPy view `dst[st : st+src.length]`
(when the clipped view is shorter than `src`, NumPy raises instead; the
model clips, and every use below notes where that distinction matters). -/
def writeRange (dst : List ℤ) (st : ℕ) (src : List ℤ) : List ℤ :=
  dst.take st ++ src.take (dst.length - st) ++ dst.drop (st + src.length)

/-- Update one parity slot of a double buffer (a function from parity `0`/`1`
to slot contents). -/
def updSlot (s : ℕ → List ℤ) (p : ℕ) (v : List ℤ) : ℕ → List ℤ :=
  fun q => if q = p then v else s q

theorem writeRange_length (dst : List ℤ) (st : ℕ) (src : List ℤ) :
    (writeRange dst st src).length = dst.length := by
  simp only [writeRange, List.length_append, List.length_take, List.length_drop]
  omega

/-- Modelled from the spec (§4.1, `ChunkPlan`): `config_sizes.ConfigSizes` is
not part of the excerpted source; the spec states that for a total extent and
a target chunk length the chunk count is `ceil(extent / target)`.  This is
`nzchunk`/`ntchunk` in the code. -/
def nchunk (extent target : ℕ) : ℕ :=
  (extent + target - 1) / target

/-- Modelled from the spec (§4.1, `ChunkPlan`): every chunk has the target
length except the final one, which takes the remainder
`extent - (count-1)*target`.  This is `lzchunk`/`ltchunk` in the code. -/
def lchunk (extent target : ℕ) (i : ℕ) : ℕ :=
  if i + 1 < nchunk extent target then target
  else extent - (nchunk extent target - 1) * target

/-- Validity of the spec's chunk plan: every chunk of the plan is nonempty,
no longer than the target, and lies entirely inside the array extent. -/
theorem lchunk_spec (E t i : ℕ) (ht : 0 < t) (hi : i < nchunk E t) :
    0 < lchunk E t i ∧ lchunk E t i ≤ t ∧ i * t + lchunk E t i ≤ E := by
  have hd : t * nchunk E t + (E + t - 1) % t = E + t - 1 := by
    unfold nchunk
    exact Nat.div_add_mod _ _
  have hm : (E + t - 1) % t < t := Nat.mod_lt _ ht
  obtain ⟨m, hC⟩ : ∃ m, nchunk E t = m + 1 := ⟨nchunk E t - 1, by omega⟩
  have hprod : t * (m + 1) = m * t + t := by ring
  unfold lchunk
  rw [hC] at hd hi ⊢
  simp only [Nat.add_sub_cancel]
  split
  next h =>
    have h1 : (i + 1) * t ≤ m * t := Nat.mul_le_mul_right t (by omega)
    have h2 : (i + 1) * t = i * t + t := by ring
    omega
  next h =>
    have hieq : i = m := by omega
    subst hieq
    omega

/-!
Host-side trace of one pipeline run.  Both `proc_sino_parallel`
(lines 253-288) and `proc_proj_parallel` (lines 323-348) run the loop
`for k in range(nchunk+2)` and perform, in program order at iteration `k`:
report progress; if `0 < k < nchunk+1` enqueue the stage function on
stream2 (slots `(k-1) % 2`); if `k > 1` enqueue the device-to-host flush of
output slot `(k-2) % 2` for chunk `k-2` on stream3; if `k < nchunk` enqueue
the fill of input slot `k % 2` from chunk `k` on stream1; synchronize
stream3; if `k > 1` (in-memory mode) copy the pinned output slot into the
destination range of chunk `k-2`; synchronize stream1; synchronize stream2.
-/

/-- Events of the host trace.  Each constructor records the loop iteration
`k` it belongs to; enqueue events also record the buffer parity slot and
chunk index the code computes for them. -/
inductive Ev where
  | progress (k cur total : ℕ)
  | compute (k inSlot outSlot : ℕ)
  | flushOut (k slot chunk : ℕ)
  | fill (k slot chunk : ℕ)
  | sync3 (k : ℕ)
  | hostCopy (k slot chunk : ℕ)
  | sync1 (k : ℕ)
  | sync2 (k : ℕ)
deriving DecidableEq, Repr

/-- Progress report, line 254: `printProgressBar(k, nzchunk+1, ...)` is
called with current value `k` and total `nzchunk + 1`, before anything is
enqueued in iteration `k`. -/
def progPart (C k : ℕ) : List Ev :=
  [Ev.progress k k (C + 1)]

/-- Stage-function enqueue, lines 257-260: guarded by
`k > 0 and k < nzchunk + 1`; reads input slots `(k-1) % 2` and writes
output slot `(k-1) % 2`. -/
def computePart (C k : ℕ) : List Ev :=
  if 0 < k ∧ k < C + 1 then [Ev.compute k ((k - 1) % 2) ((k - 1) % 2)] else []

/-- Device-to-host flush enqueue, lines 261-266: guarded by `k > 1`;
flushes output slot `(k-2) % 2`, which belongs to chunk `k-2`. -/
def flushPart (k : ℕ) : List Ev :=
  if 1 < k then [Ev.flushOut k ((k - 2) % 2) (k - 2)] else []

/-- Input fill enqueue, lines 268-281: guarded by `k < nzchunk`; fills
input slot `k % 2` from the source range of chunk `k`. -/
def fillPart (C k : ℕ) : List Ev :=
  if k < C then [Ev.fill k (k % 2) k] else []

/-- Pinned-to-destination copy, lines 283-286: after stream3 has been
synchronized and guarded by `k > 1`, the pinned output slot `(k-2) % 2` is
copied to the destination range of chunk `k-2` (in-memory mode). -/
def hostPart (k : ℕ) : List Ev :=
  if 1 < k then [Ev.hostCopy k ((k - 2) % 2) (k - 2)] else []

/-- Host events of one loop iteration, in program order (lines 253-288). -/
def iterEvents (C k : ℕ) : List Ev :=
  progPart C k ++ computePart C k ++ flushPart k ++ fillPart C k ++
    [Ev.sync3 k] ++ hostPart k ++ [Ev.sync1 k, Ev.sync2 k]

/-- Full host trace of a run with `C` chunks: the loop
`for k in range(nzchunk+2)` (line 253). -/
def pipelineTrace (C : ℕ) : List Ev :=
  (List.range (C + 2)).flatMap (iterEvents C)

def isProgressEv : Ev → Bool
  | .progress _ _ _ => true
  | _ => false

def isComputeEv : Ev → Bool
  | .compute _ _ _ => true
  | _ => false

def isFlushEv : Ev → Bool
  | .flushOut _ _ _ => true
  | _ => false

def isFillEv : Ev → Bool
  | .fill _ _ _ => true
  | _ => false

theorem filter_flatMap (l : List ℕ) (f : ℕ → List Ev) (p : Ev → Bool) :
    (l.flatMap f).filter p = l.flatMap (fun a => (f a).filter p) := by
  induction l with
  | nil => rfl
  | cons a l ih => simp [List.flatMap_cons, List.filter_append, ih]

theorem flatMap_congr_mem {l : List ℕ} {f g : ℕ → List Ev} (h : ∀ a ∈ l, f a = g a) :
    l.flatMap f = l.flatMap g := by
  induction l with
  | nil => rfl
  | cons a l ih =>
    simp only [List.flatMap_cons]
    rw [h a (by simp), ih (fun b hb => h b (by simp [hb]))]

theorem flatMap_singleton (l : List ℕ) (f : ℕ → Ev) :
    l.flatMap (fun a => [f a]) = l.map f := by
  induction l with
  | nil => rfl
  | cons a l ih => simp [List.flatMap_cons, ih]

theorem iter_filter_prog (C k : ℕ) :
    (iterEvents C k).filter isProgressEv = progPart C k := by
  unfold iterEvents progPart computePart flushPart fillPart hostPart
  repeat rw [List.filter_append]
  split <;> split <;> split <;> simp [isProgressEv]

theorem iter_filter_compute (C k : ℕ) :
    (iterEvents C k).filter isComputeEv = computePart C k := by
  unfold iterEvents progPart computePart flushPart fillPart hostPart
  repeat rw [List.filter_append]
  split <;> split <;> split <;> simp [isComputeEv]

theorem iter_filter_flush (C k : ℕ) :
    (iterEvents C k).filter isFlushEv = flushPart k := by
  unfold iterEvents progPart computePart flushPart fillPart hostPart
  repeat rw [List.filter_append]
  split <;> split <;> split <;> simp [isFlushEv]

theorem iter_filter_fill (C k : ℕ) :
    (iterEvents C k).filter isFillEv = fillPart C k := by
  unfold iterEvents progPart computePart flushPart fillPart hostPart
  repeat rw [List.filter_append]
  split <;> split <;> split <;> simp [isFillEv]

theorem flatMap_progPart (C : ℕ) :
    (List.range (C + 2)).flatMap (progPart C) =
      (List.range (C + 2)).map (fun k => Ev.progress k k (C + 1)) :=
  flatMap_singleton _ _

theorem flatMap_flushPart (C : ℕ) :
    (List.range (C + 2)).flatMap (fun k => flushPart k) =
      (List.range C).map (fun i => Ev.flushOut (i + 2) (i % 2) i) := by
  induction C with
  | zero => decide
  | succ n ih =>
    rw [show n + 1 + 2 = (n + 2) + 1 by ring, List.range_succ, List.flatMap_append, ih,
      List.range_succ, List.map_append]
    have h1 : flushPart (n + 2) = [Ev.flushOut (n + 2) (n % 2) n] := by
      unfold flushPart
      rw [if_pos (by omega)]
      simp [Nat.add_sub_cancel]
    simp only [List.flatMap_cons, List.flatMap_nil, List.append_nil, h1]
    simp

theorem flatMap_computeAux (n : ℕ) :
    ((List.range (n + 1)).flatMap
        (fun k => if 0 < k then [Ev.compute k ((k - 1) % 2) ((k - 1) % 2)] else [])) =
      (List.range n).map (fun i => Ev.compute (i + 1) (i % 2) (i % 2)) := by
  induction n with
  | zero => decide
  | succ m ih =>
    rw [List.range_succ, List.flatMap_append, ih, List.range_succ, List.map_append]
    simp only [List.flatMap_cons, List.flatMap_nil, List.append_nil]
    rw [if_pos (by omega)]
    simp [Nat.add_sub_cancel]

theorem flatMap_computePart (C : ℕ) :
    (List.range (C + 2)).flatMap (computePart C) =
      (List.range C).map (fun i => Ev.compute (i + 1) (i % 2) (i % 2)) := by
  have hshape : (List.range (C + 2)).flatMap (computePart C) =
      (List.range (C + 1)).flatMap
        (fun k => if 0 < k then [Ev.compute k ((k - 1) % 2) ((k - 1) % 2)] else []) := by
    rw [show C + 2 = (C + 1) + 1 by ring, List.range_succ, List.flatMap_append]
    have hlast : computePart C (C + 1) = [] := by
      unfold computePart
      rw [if_neg (by omega)]
    simp only [List.flatMap_cons, List.flatMap_nil, hlast, List.append_nil]
    exact flatMap_congr_mem (fun k hk => by
      unfold computePart
      have hk2 : k < C + 1 := List.mem_range.mp hk
      by_cases h0 : 0 < k
      · rw [if_pos ⟨h0, by omega⟩, if_pos h0]
      · rw [if_neg (by omega), if_neg h0])
  rw [hshape]
  exact flatMap_computeAux C

theorem flatMap_fillPart (C : ℕ) :
    (List.range (C + 2)).flatMap (fillPart C) =
      (List.range C).map (fun i => Ev.fill i (i % 2) i) := by
  rw [show C + 2 = (C + 1) + 1 by ring, List.range_succ, List.flatMap_append,
    List.range_succ, List.flatMap_append]
  have h1 : fillPart C C = [] := by
    unfold fillPart
    rw [if_neg (by omega)]
  have h2 : fillPart C (C + 1) = [] := by
    unfold fillPart
    rw [if_neg (by omega)]
  simp only [List.flatMap_cons, List.flatMap_nil, h1, h2, List.append_nil]
  have hcg := flatMap_congr_mem (l := List.range C) (f := fillPart C)
    (g := fun k => [Ev.fill k (k % 2) k]) (fun k hk => by
      unfold fillPart
      rw [if_pos (List.mem_range.mp hk)])
  rw [hcg]
  exact flatMap_singleton _ _

/-- Claim C2: a run with `chunkCount = C` executes exactly `C+2` iterations
`k = 0 .. C+1` (one progress event per iteration); the stage function is
enqueued exactly for `1 ≤ k ≤ C`, reading input slot `(k-1) % 2` and writing
output slot `(k-1) % 2`; the Store channel is exercised exactly for `k ≥ 2`,
flushing output slot `(k-2) % 2` to the destination range of chunk `k-2`,
hence exactly `C` times, once per chunk `0 .. C-1` in increasing order; the
Load channel is exercised exactly for `k ≤ C-1`, filling input slot `k % 2`
from the source range of chunk `k`. -/
theorem c2_channel_schedule (C : ℕ) :
    (pipelineTrace C).filter isProgressEv =
        (List.range (C + 2)).map (fun k => Ev.progress k k (C + 1))
      ∧ (pipelineTrace C).filter isComputeEv =
        (List.range C).map (fun i => Ev.compute (i + 1) (i % 2) (i % 2))
      ∧ (pipelineTrace C).filter isFlushEv =
        (List.range C).map (fun i => Ev.flushOut (i + 2) (i % 2) i)
      ∧ (pipelineTrace C).filter isFillEv =
        (List.range C).map (fun i => Ev.fill i (i % 2) i) := by
  unfold pipelineTrace
  rw [filter_flatMap, filter_flatMap, filter_flatMap, filter_flatMap]
  refine ⟨?_, ?_, ?_, ?_⟩
  · rw [flatMap_congr_mem (fun k _ => iter_filter_prog C k)]
    exact flatMap_progPart C
  · rw [flatMap_congr_mem (fun k _ => iter_filter_compute C k)]
    exact flatMap_computePart C
  · rw [flatMap_congr_mem (fun k _ => iter_filter_flush C k)]
    exact flatMap_flushPart C
  · rw [flatMap_congr_mem (fun k _ => iter_filter_fill C k)]
    exact flatMap_fillPart C

theorem pair_sublist_append {a b : Ev} {l₁ l₂ : List Ev} (ha : a ∈ l₁) (hb : b ∈ l₂) :
    List.Sublist [a, b] (l₁ ++ l₂) :=
  List.Sublist.append (List.singleton_sublist.mpr ha) (List.singleton_sublist.mpr hb)

theorem sublist_flatMap {l₁ l₂ : List ℕ} (f : ℕ → List Ev) (h : List.Sublist l₁ l₂) :
    List.Sublist (l₁.flatMap f) (l₂.flatMap f) := by
  induction h with
  | slnil => simp
  | cons a h ih => simpa [List.flatMap_cons] using ih.trans (List.sublist_append_right (f a) _)
  | cons₂ a h ih => simpa [List.flatMap_cons] using List.Sublist.append_left ih (f a)

theorem pair_sublist_range {k j n : ℕ} (h1 : k < j) (h2 : j < n) :
    List.Sublist [k, j] (List.range n) := by
  induction n with
  | zero => omega
  | succ m ih =>
    rw [List.range_succ]
    by_cases hj : j < m
    · exact (ih hj).trans (List.sublist_append_left _ _)
    · have hjm : j = m := by omega
      subst hjm
      exact List.Sublist.append (List.singleton_sublist.mpr (List.mem_range.mpr h1))
        (List.Sublist.refl _)

/-- Host program order across iterations: an event of iteration `k` appears
in the trace before any event of a later iteration `j`. -/
theorem cross_iter_sublist {C k j : ℕ} (hkj : k < j) (hj : j < C + 2) {a b : Ev}
    (ha : a ∈ iterEvents C k) (hb : b ∈ iterEvents C j) :
    List.Sublist [a, b] (pipelineTrace C) := by
  have h1 : List.Sublist ([k, j].flatMap (iterEvents C)) (pipelineTrace C) :=
    sublist_flatMap _ (pair_sublist_range hkj hj)
  have h2 : List.Sublist [a, b] ([k, j].flatMap (iterEvents C)) := by
    simpa [List.flatMap_cons] using pair_sublist_append ha hb
  exact h2.trans h1

theorem iter_sublist_trace {C k : ℕ} (hk : k < C + 2) {l : List Ev}
    (h : List.Sublist l (iterEvents C k)) : List.Sublist l (pipelineTrace C) := by
  have h1 : List.Sublist ([k].flatMap (iterEvents C)) (pipelineTrace C) :=
    sublist_flatMap _ (List.singleton_sublist.mpr (List.mem_range.mpr hk))
  have h2 : List.Sublist l ([k].flatMap (iterEvents C)) := by
    simpa using h
  exact h2.trans h1

theorem sync1_mem_iter (C k : ℕ) : Ev.sync1 k ∈ iterEvents C k := by
  simp [iterEvents]

theorem sync2_mem_iter (C k : ℕ) : Ev.sync2 k ∈ iterEvents C k := by
  simp [iterEvents]

theorem compute_mem_iter {C k : ℕ} (h1 : 0 < k) (h2 : k < C + 1) :
    Ev.compute k ((k - 1) % 2) ((k - 1) % 2) ∈ iterEvents C k := by
  unfold iterEvents computePart
  rw [if_pos ⟨h1, h2⟩]
  simp

theorem flush_mem_iter {k : ℕ} (C : ℕ) (h : 1 < k) :
    Ev.flushOut k ((k - 2) % 2) (k - 2) ∈ iterEvents C k := by
  unfold iterEvents flushPart
  rw [if_pos h]
  simp

theorem fill_before_sync1 {C k : ℕ} (h : k < C) :
    List.Sublist [Ev.fill k (k % 2) k, Ev.sync1 k] (iterEvents C k) := by
  unfold iterEvents
  simp only [List.append_assoc]
  refine List.Sublist.trans ?_ (List.sublist_append_right (progPart C k) _)
  refine List.Sublist.trans ?_ (List.sublist_append_right (computePart C k) _)
  refine List.Sublist.trans ?_ (List.sublist_append_right (flushPart k) _)
  apply pair_sublist_append
  · unfold fillPart
    rw [if_pos h]
    simp
  · simp

theorem compute_before_sync2 {C k : ℕ} (h1 : 0 < k) (h2 : k < C + 1) :
    List.Sublist [Ev.compute k ((k - 1) % 2) ((k - 1) % 2), Ev.sync2 k] (iterEvents C k) := by
  unfold iterEvents
  simp only [List.append_assoc]
  refine List.Sublist.trans ?_ (List.sublist_append_right (progPart C k) _)
  apply pair_sublist_append
  · unfold computePart
    rw [if_pos ⟨h1, h2⟩]
    simp
  · simp

theorem prog_before_sync3 (C k : ℕ) :
    List.Sublist [Ev.progress k k (C + 1), Ev.sync3 k] (iterEvents C k) := by
  unfold iterEvents
  simp only [List.append_assoc]
  apply pair_sublist_append
  · simp [progPart]
  · simp

/-- Claim C3: for every chunk index `i`, the Load of chunk `i` (enqueued at
iteration `i` on stream1) is waited on (`stream1.synchronize`, end of
iteration `i`) before the Compute reading slot `i % 2` for chunk `i` is
enqueued (iteration `i+1`); the Compute of chunk `i` is waited on
(`stream2.synchronize`, end of iteration `i+1`) before the Store flushing
slot `i % 2` for chunk `i` is enqueued (iteration `i+2`); and in general the
full barrier of an earlier iteration precedes every event of every later
iteration, so a buffer parity is never reused before the barrier of its
previous owner completed. -/
theorem c3_no_slot_race (C i : ℕ) (h : i < C) :
    List.Sublist [Ev.fill i (i % 2) i, Ev.sync1 i] (pipelineTrace C)
  ∧ List.Sublist [Ev.sync1 i, Ev.compute (i + 1) (i % 2) (i % 2)] (pipelineTrace C)
  ∧ List.Sublist [Ev.compute (i + 1) (i % 2) (i % 2), Ev.sync2 (i + 1)] (pipelineTrace C)
  ∧ List.Sublist [Ev.sync2 (i + 1), Ev.flushOut (i + 2) (i % 2) i] (pipelineTrace C)
  ∧ (∀ k j e, k < j → j < C + 2 → e ∈ iterEvents C j →
      List.Sublist [Ev.sync2 k, e] (pipelineTrace C)) := by
  refine ⟨?_, ?_, ?_, ?_, ?_⟩
  · exact iter_sublist_trace (by omega) (fill_before_sync1 h)
  · exact cross_iter_sublist (Nat.lt_succ_self i) (by omega) (sync1_mem_iter C i)
      (compute_mem_iter (by omega) (by omega))
  · exact iter_sublist_trace (by omega) (compute_before_sync2 (by omega) (by omega))
  · exact cross_iter_sublist (Nat.lt_succ_self (i + 1)) (by omega) (sync2_mem_iter C (i + 1))
      (flush_mem_iter C (by omega))
  · intro k j e hkj hj he
    exact cross_iter_sublist hkj hj (sync2_mem_iter C k) he

theorem c3_no_slot_race_witness :
    List.Sublist [Ev.fill 1 1 1, Ev.sync1 1] (pipelineTrace 3)
  ∧ List.Sublist [Ev.sync1 1, Ev.compute 2 1 1] (pipelineTrace 3)
  ∧ List.Sublist [Ev.compute 2 1 1, Ev.sync2 2] (pipelineTrace 3)
  ∧ List.Sublist [Ev.sync2 2, Ev.flushOut 3 1 1] (pipelineTrace 3)
  ∧ List.Sublist [Ev.sync2 0, Ev.sync3 2] (pipelineTrace 3) := by
  have h := c3_no_slot_race 3 1 (by decide)
  exact ⟨h.1, h.2.1, h.2.2.1, h.2.2.2.1,
    h.2.2.2.2 0 2 (Ev.sync3 2) (by decide) (by decide) (by decide)⟩

/-- Claim C8 counterexample: with `chunkCount = 1`, the progress sink is
invoked with total `nzchunk + 1 = 2`, never with total `chunkCount = 1`, and
the invocation of iteration 2 precedes the iteration's barrier
(`stream3.synchronize`) instead of following it as a step 5. -/
theorem c8_progress_cex :
    Ev.progress 0 0 2 ∈ pipelineTrace 1
  ∧ Ev.progress 0 0 1 ∉ pipelineTrace 1
  ∧ (pipelineTrace 1).indexOf (Ev.progress 2 2 2) < (pipelineTrace 1).indexOf (Ev.sync3 2) := by
  decide

/-- Claim C8, amended: the progress sink is invoked exactly once per
iteration, at iteration `k` reporting current value `k` out of a total of
`chunkCount + 1` (not `chunkCount`), and the report happens at the start of
the iteration, before the iteration's barrier. -/
theorem c8_progress_amended (C : ℕ) :
    (pipelineTrace C).filter isProgressEv =
      (List.range (C + 2)).map (fun k => Ev.progress k k (C + 1))
  ∧ ∀ k, k < C + 2 →
      List.Sublist [Ev.progress k k (C + 1), Ev.sync3 k] (pipelineTrace C) := by
  constructor
  · unfold pipelineTrace
    rw [filter_flatMap, flatMap_congr_mem (fun k _ => iter_filter_prog C k)]
    exact flatMap_progPart C
  · intro k hk
    exact iter_sublist_trace hk (prog_before_sync3 C k)

theorem c8_progress_amended_witness :
    (pipelineTrace 1).filter isProgressEv =
      (List.range 3).map (fun k => Ev.progress k k 2)
  ∧ List.Sublist [Ev.progress 2 2 2, Ev.sync3 2] (pipelineTrace 1) :=
  ⟨(c8_progress_amended 1).1, (c8_progress_amended 1).2 2 (by decide)⟩

/-!
Value-level model of `proc_sino_parallel` (lines 215-289).  The state holds
the three input arrays (`data`, `dark`, `flat` — chunked along the `z`
axis), the result array `res`, and the double buffers: pinned host slots
(in-memory mode only) and device slots for each role.  Each phase of the
loop body is one function; the phases are applied in host program order.
Applying them sequentially is value-faithful because every operation of one
iteration touches state disjoint from the others (the parities differ) and
the three stream synchronizations at the end of each iteration make all
enqueued work complete before the next iteration (theorem
`c3_no_slot_race`).
-/

structure SinoSt where
  data : List ℤ
  dark : List ℤ
  flat : List ℤ
  pinData : ℕ → List ℤ
  pinDark : ℕ → List ℤ
  pinFlat : ℕ → List ℤ
  pinRec : ℕ → List ℤ
  gpuData : ℕ → List ℤ
  gpuDark : ℕ → List ℤ
  gpuFlat : ℕ → List ℤ
  gpuRec : ℕ → List ℤ
  res : List ℤ

/-- Buffer allocation of `proc_sino_parallel`, in-memory mode
(lines 229-250): `res = np.zeros(data.shape)`; pinned `data`/`dark` slots
and the pinned result slots are `np.zeros([2, *chunk_shape])`, the pinned
`flat` slots are `np.ones([2, *chunk_shape])` (line 237); the device
`data`/`dark` slots and result slots are `cp.zeros`, the device `flat`
slots are `cp.ones` (line 247). -/
def sinoInitNp (ncz : ℕ) (data dark flat : List ℤ) : SinoSt where
  data := data
  dark := dark
  flat := flat
  pinData := fun _ => List.replicate ncz 0
  pinDark := fun _ => List.replicate ncz 0
  pinFlat := fun _ => List.replicate ncz 1
  pinRec := fun _ => List.replicate ncz 0
  gpuData := fun _ => List.replicate ncz 0
  gpuDark := fun _ => List.replicate ncz 0
  gpuFlat := fun _ => List.replicate ncz 1
  gpuRec := fun _ => List.replicate ncz 0
  res := List.replicate data.length 0

/-- Stage-function enqueue (lines 257-260): for `0 < k < nzchunk+1`,
`proc_sino(item_gpu['data'][(k-1)%2], item_gpu['dark'][(k-1)%2],
item_gpu['flat'][(k-1)%2], rec_gpu[(k-1)%2])` overwrites output slot
`(k-1) % 2` with the stage function `f` of the three input slots. -/
def sinoPhaseCompute (f : List ℤ → List ℤ → List ℤ → List ℤ) (C k : ℕ) (s : SinoSt) : SinoSt :=
  if 0 < k ∧ k < C + 1 then
    { s with gpuRec :=
        (updSlot s.gpuRec ((k - 1) % 2)
          (f (s.gpuData ((k - 1) % 2)) (s.gpuDark ((k - 1) % 2)) (s.gpuFlat ((k - 1) % 2)))) }
  else s

/-- Device-to-pinned flush (lines 261-266, in-memory branch): for `k > 1`,
`rec_gpu[(k-2)%2].get(out=rec_pinned[(k-2)%2])` copies the full device
output slot into the pinned output slot of the same parity. -/
def sinoPhaseFlushNp (k : ℕ) (s : SinoSt) : SinoSt :=
  if 1 < k then { s with pinRec := updSlot s.pinRec ((k - 2) % 2) (s.gpuRec ((k - 2) % 2)) } else s

/-- Input fill (lines 268-281, in-memory branch): for `k < nzchunk`, each
source array's chunk `k` range `[:, k*ncz : k*ncz+lzchunk[k]]` is copied
into the first `lzchunk[k]` entries of the pinned slot `k % 2`
(`item_pinned[...][k%2, :, :lzchunk[k]]`), then the full pinned slot is
transferred to the device slot of the same parity (`.set(...)`). -/
def sinoPhaseFillNp (C ncz : ℕ) (lz : ℕ → ℕ) (k : ℕ) (s : SinoSt) : SinoSt :=
  if k < C then
    { s with
      pinData :=
        (updSlot s.pinData (k % 2) (writeRange (s.pinData (k % 2)) 0 (sliceArr s.data (k * ncz) (lz k))))
      pinDark :=
        (updSlot s.pinDark (k % 2) (writeRange (s.pinDark (k % 2)) 0 (sliceArr s.dark (k * ncz) (lz k))))
      pinFlat :=
        (updSlot s.pinFlat (k % 2) (writeRange (s.pinFlat (k % 2)) 0 (sliceArr s.flat (k * ncz) (lz k))))
      gpuData :=
        (updSlot s.gpuData (k % 2) (writeRange (s.pinData (k % 2)) 0 (sliceArr s.data (k * ncz) (lz k))))
      gpuDark :=
        (updSlot s.gpuDark (k % 2) (writeRange (s.pinDark (k % 2)) 0 (sliceArr s.dark (k * ncz) (lz k))))
      gpuFlat :=
        (updSlot s.gpuFlat (k % 2) (writeRange (s.pinFlat (k % 2)) 0 (sliceArr s.flat (k * ncz) (lz k)))) }
  else s

/-- Pinned-to-result copy (lines 283-286): after `stream3.synchronize()`,
for `k > 1`, `rec_pinned[(k-2)%2, :, :lzchunk[k-2]]` (the first
`lzchunk[k-2]` entries of the pinned output slot) is copied into
`res[:, (k-2)*ncz : (k-2)*ncz+lzchunk[k-2]]`. -/
def sinoPhaseHostCopy (ncz : ℕ) (lz : ℕ → ℕ) (k : ℕ) (s : SinoSt) : SinoSt :=
  if 1 < k then
    { s with res := (writeRange s.res ((k - 2) * ncz) ((s.pinRec ((k - 2) % 2)).take (lz (k - 2)))) }
  else s

/-- One iteration of the in-memory sinogram pipeline, phases in host
program order. -/
def sinoStepNp (f : List ℤ → List ℤ → List ℤ → List ℤ) (C ncz : ℕ) (lz : ℕ → ℕ)
    (k : ℕ) (s : SinoSt) : SinoSt :=
  sinoPhaseHostCopy ncz lz k (sinoPhaseFillNp C ncz lz k (sinoPhaseFlushNp k (sinoPhaseCompute f C k s)))

/-- Full in-memory run of `proc_sino_parallel`: the loop
`for k in range(nzchunk+2)` over the initial state. -/
def sinoRunNp (f : List ℤ → List ℤ → List ℤ → List ℤ) (C ncz : ℕ) (lz : ℕ → ℕ)
    (data dark flat : List ℤ) : SinoSt :=
  (List.range (C + 2)).foldl (fun s k => sinoStepNp f C ncz lz k s) (sinoInitNp ncz data dark flat)

/-!
Out-of-core (zarr) branch of `proc_sino_parallel`: no pinned slots; the
result is a fresh zarr store (line 227), loads assign the chunk slice
directly to the device slot (lines 272-274) and the flush assigns the full
device output slot to the destination range (line 264).  NumPy/zarr reject
these two assignments when the final chunk is shorter than the slot (shape
mismatch); the model clips the write at the boundaries instead, which
affects no theorem below (only the untouched input arrays are at issue).
-/

structure SinoZSt where
  data : List ℤ
  dark : List ℤ
  flat : List ℤ
  gpuData : ℕ → List ℤ
  gpuDark : ℕ → List ℤ
  gpuFlat : ℕ → List ℤ
  gpuRec : ℕ → List ℤ
  res : List ℤ

/-- Buffer allocation of `proc_sino_parallel`, zarr mode (lines 224-250):
`res = zarr.empty(data.shape, ...)` (modelled zero-filled; its initial
contents are unobserved), device slots as in the in-memory mode, with the
`flat` slots again `cp.ones`. -/
def sinoInitZ (ncz : ℕ) (data dark flat : List ℤ) : SinoZSt where
  data := data
  dark := dark
  flat := flat
  gpuData := fun _ => List.replicate ncz 0
  gpuDark := fun _ => List.replicate ncz 0
  gpuFlat := fun _ => List.replicate ncz 1
  gpuRec := fun _ => List.replicate ncz 0
  res := List.replicate data.length 0

/-- Stage-function enqueue, identical in both storage modes. -/
def sinoPhaseComputeZ (f : List ℤ → List ℤ → List ℤ → List ℤ) (C k : ℕ) (s : SinoZSt) : SinoZSt :=
  if 0 < k ∧ k < C + 1 then
    { s with gpuRec :=
        (updSlot s.gpuRec ((k - 1) % 2)
          (f (s.gpuData ((k - 1) % 2)) (s.gpuDark ((k - 1) % 2)) (s.gpuFlat ((k - 1) % 2)))) }
  else s

/-- Device-to-store flush (line 264): for `k > 1`,
`res[:, (k-2)*ncz : (k-2)*ncz+lzchunk[k-2]] = rec_gpu[(k-2)%2]`. -/
def sinoPhaseFlushZ (ncz : ℕ) (k : ℕ) (s : SinoZSt) : SinoZSt :=
  if 1 < k then
    { s with res := writeRange s.res ((k - 2) * ncz) (s.gpuRec ((k - 2) % 2)) }
  else s

/-- Input fill (lines 272-274): for `k < nzchunk`,
`item_gpu[...][k%2] = arr[:, k*ncz : k*ncz+lzchunk[k]]` assigns the chunk
slice of each source array to the device slot of parity `k % 2`. -/
def sinoPhaseFillZ (C ncz : ℕ) (lz : ℕ → ℕ) (k : ℕ) (s : SinoZSt) : SinoZSt :=
  if k < C then
    { s with
      gpuData := (updSlot s.gpuData (k % 2) (sliceArr s.data (k * ncz) (lz k)))
      gpuDark := (updSlot s.gpuDark (k % 2) (sliceArr s.dark (k * ncz) (lz k)))
      gpuFlat := (updSlot s.gpuFlat (k % 2) (sliceArr s.flat (k * ncz) (lz k))) }
  else s

/-- One iteration of the zarr-mode sinogram pipeline (the in-memory
pinned-to-result copy of lines 283-286 is skipped in this branch). -/
def sinoStepZ (f : List ℤ → List ℤ → List ℤ → List ℤ) (C ncz : ℕ) (lz : ℕ → ℕ)
    (k : ℕ) (s : SinoZSt) : SinoZSt :=
  sinoPhaseFillZ C ncz lz k (sinoPhaseFlushZ ncz k (sinoPhaseComputeZ f C k s))

/-- Full zarr-mode run of `proc_sino_parallel`. -/
def sinoRunZ (f : List ℤ → List ℤ → List ℤ → List ℤ) (C ncz : ℕ) (lz : ℕ → ℕ)
    (data dark flat : List ℤ) : SinoZSt :=
  (List.range (C + 2)).foldl (fun s k => sinoStepZ f C ncz lz k s) (sinoInitZ ncz data dark flat)

theorem foldl_proj_inv {σ : Type} (P : σ → List ℤ) (g : σ → ℕ → σ)
    (h : ∀ s k, P (g s k) = P s) : ∀ (l : List ℕ) (s : σ), P (l.foldl g s) = P s := by
  intro l
  induction l with
  | nil => intro s; rfl
  | cons a l ih =>
    intro s
    rw [List.foldl_cons, ih, h]

theorem sinoStepNp_frame (f : List ℤ → List ℤ → List ℤ → List ℤ) (C ncz : ℕ)
    (lz : ℕ → ℕ) (k : ℕ) (s : SinoSt) :
    (sinoStepNp f C ncz lz k s).data = s.data
  ∧ (sinoStepNp f C ncz lz k s).dark = s.dark
  ∧ (sinoStepNp f C ncz lz k s).flat = s.flat := by
  unfold sinoStepNp sinoPhaseHostCopy sinoPhaseFillNp sinoPhaseFlushNp sinoPhaseCompute
  repeat' split
  all_goals exact ⟨rfl, rfl, rfl⟩

theorem sinoStepZ_frame (f : List ℤ → List ℤ → List ℤ → List ℤ) (C ncz : ℕ)
    (lz : ℕ → ℕ) (k : ℕ) (s : SinoZSt) :
    (sinoStepZ f C ncz lz k s).data = s.data
  ∧ (sinoStepZ f C ncz lz k s).dark = s.dark
  ∧ (sinoStepZ f C ncz lz k s).flat = s.flat := by
  unfold sinoStepZ sinoPhaseFillZ sinoPhaseFlushZ sinoPhaseComputeZ
  repeat' split
  all_goals exact ⟨rfl, rfl, rfl⟩

/-- Claim C10: `proc_sino_parallel` never modifies its input arrays — in
both storage modes, after the full pipeline run the `data`, `dark` and
`flat` arrays hold exactly their pre-call contents (the result is assembled
in the separately allocated `res` array, `np.zeros` at line 229 or
`zarr.empty` at line 227). -/
theorem c10_sino_inputs_preserved (f : List ℤ → List ℤ → List ℤ → List ℤ)
    (C ncz : ℕ) (lz : ℕ → ℕ) (data dark flat : List ℤ) :
    (sinoRunNp f C ncz lz data dark flat).data = data
  ∧ (sinoRunNp f C ncz lz data dark flat).dark = dark
  ∧ (sinoRunNp f C ncz lz data dark flat).flat = flat
  ∧ (sinoRunZ f C ncz lz data dark flat).data = data
  ∧ (sinoRunZ f C ncz lz data dark flat).dark = dark
  ∧ (sinoRunZ f C ncz lz data dark flat).flat = flat := by
  unfold sinoRunNp sinoRunZ
  refine ⟨?_, ?_, ?_, ?_, ?_, ?_⟩
  · exact foldl_proj_inv (fun s => s.data) _
      (fun s k => (sinoStepNp_frame f C ncz lz k s).1) _ _
  · exact foldl_proj_inv (fun s => s.dark) _
      (fun s k => (sinoStepNp_frame f C ncz lz k s).2.1) _ _
  · exact foldl_proj_inv (fun s => s.flat) _
      (fun s k => (sinoStepNp_frame f C ncz lz k s).2.2) _ _
  · exact foldl_proj_inv (fun s => s.data) _
      (fun s k => (sinoStepZ_frame f C ncz lz k s).1) _ _
  · exact foldl_proj_inv (fun s => s.dark) _
      (fun s k => (sinoStepZ_frame f C ncz lz k s).2.1) _ _
  · exact foldl_proj_inv (fun s => s.flat) _
      (fun s k => (sinoStepZ_frame f C ncz lz k s).2.2) _ _

/-- Double buffers of `proc_proj_parallel`, in-memory mode (lines 309-320):
pinned slots for the input chunk and the processed chunk, and device slots
for both, all allocated as `zeros([2, *chunk_shape])`. -/
structure ProjBufs where
  dataPin : ℕ → List ℤ
  recPin : ℕ → List ℤ
  dataGpu : ℕ → List ℤ
  recGpu : ℕ → List ℤ

/-- Buffer allocation of `proc_proj_parallel` (lines 309-320): every slot
of every role is zero-initialized with the maximum chunk shape. -/
def projInitNp (ncproj : ℕ) : ProjBufs where
  dataPin := fun _ => List.replicate ncproj 0
  recPin := fun _ => List.replicate ncproj 0
  dataGpu := fun _ => List.replicate ncproj 0
  recGpu := fun _ => List.replicate ncproj 0

/-- Claim C7 counterexample: the `flat` double buffer is initialized with
`np.ones`/`cp.ones` (lines 237 and 247), not zero as the claim states. -/
theorem c7_alloc_cex :
    (sinoInitNp 2 [] [] []).gpuFlat 0 = [1, 1]
  ∧ (sinoInitNp 2 [] [] []).gpuFlat 0 ≠ List.replicate 2 (0 : ℤ)
  ∧ (sinoInitNp 2 [] [] []).pinFlat 0 ≠ List.replicate 2 (0 : ℤ) := by
  decide

/-- Claim C7, amended: at construction every role's two device slots and
(in in-memory mode) two pinned host slots are allocated with the identical
maximum-chunk shape; the data, dark and output slots are initialized to
zero, while the flat slots are initialized to one. -/
theorem c7_alloc_amended (ncz nc : ℕ) (data dark flat : List ℤ) (p : ℕ) :
    (sinoInitNp ncz data dark flat).pinData p = List.replicate ncz 0
  ∧ (sinoInitNp ncz data dark flat).pinDark p = List.replicate ncz 0
  ∧ (sinoInitNp ncz data dark flat).pinFlat p = List.replicate ncz 1
  ∧ (sinoInitNp ncz data dark flat).pinRec p = List.replicate ncz 0
  ∧ (sinoInitNp ncz data dark flat).gpuData p = List.replicate ncz 0
  ∧ (sinoInitNp ncz data dark flat).gpuDark p = List.replicate ncz 0
  ∧ (sinoInitNp ncz data dark flat).gpuFlat p = List.replicate ncz 1
  ∧ (sinoInitNp ncz data dark flat).gpuRec p = List.replicate ncz 0
  ∧ (sinoInitZ ncz data dark flat).gpuData p = List.replicate ncz 0
  ∧ (sinoInitZ ncz data dark flat).gpuDark p = List.replicate ncz 0
  ∧ (sinoInitZ ncz data dark flat).gpuFlat p = List.replicate ncz 1
  ∧ (sinoInitZ ncz data dark flat).gpuRec p = List.replicate ncz 0
  ∧ (projInitNp nc).dataPin p = List.replicate nc 0
  ∧ (projInitNp nc).recPin p = List.replicate nc 0
  ∧ (projInitNp nc).dataGpu p = List.replicate nc 0
  ∧ (projInitNp nc).recGpu p = List.replicate nc 0 := by
  refine ⟨rfl, rfl, rfl, rfl, rfl, rfl, rfl, rfl, rfl, rfl, rfl, rfl, rfl, rfl, rfl, rfl⟩

/-!
Value-level model of `proc_proj_parallel` (lines 291-349), out-of-core
(zarr) branch.  The input array `data` is chunked along the leading (angle)
axis.  When `file_type != 'double_fov'` the code sets `res = data`
(line 300): the destination is the input array object itself, so the model
keeps a single field `arr` for it; the separately allocated destination
(`sep`, from `zarr.empty` at line 305) is used only in the `double_fov`
case.
-/

structure ProjZSt where
  arr : List ℤ
  sep : List ℤ
  gpuData : ℕ → List ℤ
  gpuRec : ℕ → List ℤ

/-- Initial state of the zarr-mode projection pipeline: device slots
`cp.zeros([2, *chunk_shape])` (lines 318-320); the separate destination of
the `double_fov` case is `zarr.empty(shape_data_fulln, ...)` (line 305,
modelled zero-filled). -/
def projInitZ (nc : ℕ) (data : List ℤ) : ProjZSt where
  arr := data
  sep := List.replicate data.length 0
  gpuData := fun _ => List.replicate nc 0
  gpuRec := fun _ => List.replicate nc 0

/-- Stage-function enqueue (lines 325-328): for `0 < k < ntchunk+1`,
`proc_proj(data_gpu[(k-1)%2], rec_gpu[(k-1)%2])` overwrites output slot
`(k-1) % 2` with the stage function of input slot `(k-1) % 2`. -/
def projPhaseComputeZ (f : List ℤ → List ℤ) (C k : ℕ) (s : ProjZSt) : ProjZSt :=
  if 0 < k ∧ k < C + 1 then
    { s with gpuRec := (updSlot s.gpuRec ((k - 1) % 2) (f (s.gpuData ((k - 1) % 2)))) }
  else s

/-- Device-to-store flush (lines 329-332): for `k > 1`,
`copy(rec_gpu[(k-2)%2, :ltchunk[k-2]], res[(k-2)*ncproj : (k-2)*ncproj+ltchunk[k-2]])`
writes the first `ltchunk[k-2]` entries of output slot `(k-2) % 2` to the
destination range of chunk `k-2`; the destination is `arr` itself unless
`file_type == 'double_fov'` (lines 299-305). -/
def projPhaseFlushZ (dfov : Bool) (nc : ℕ) (lt : ℕ → ℕ) (k : ℕ) (s : ProjZSt) : ProjZSt :=
  if 1 < k then
    if dfov then
      { s with sep := (writeRange s.sep ((k - 2) * nc) ((s.gpuRec ((k - 2) % 2)).take (lt (k - 2)))) }
    else
      { s with arr := (writeRange s.arr ((k - 2) * nc) ((s.gpuRec ((k - 2) % 2)).take (lt (k - 2)))) }
  else s

/-- Input fill (lines 335-339): for `k < ntchunk`,
`copy(data[ncproj*k : ncproj*k+ltchunk[k]], data_gpu[k%2][ncproj*k : ncproj*k+ltchunk[k]])`.
The destination view indexes the two-chunk device slot at
`ncproj*k : ncproj*k+ltchunk[k]`; for `k ≥ 1` this range lies beyond the
slot's extent `ncproj`, so the clipped view is empty and nothing of chunk
`k` reaches the device slot (NumPy/CuPy would raise a shape mismatch on the
copy into the clipped view; either way the chunk is not transferred). -/
def projPhaseFillZ (C nc : ℕ) (lt : ℕ → ℕ) (k : ℕ) (s : ProjZSt) : ProjZSt :=
  if k < C then
    { s with gpuData :=
        (updSlot s.gpuData (k % 2)
          (writeRange (s.gpuData (k % 2)) (nc * k) (sliceArr s.arr (nc * k) (lt k)))) }
  else s

/-- One iteration of the zarr-mode projection pipeline, phases in host
program order (the pinned-to-result copy of lines 344-346 is skipped in the
zarr branch). -/
def projStepZ (f : List ℤ → List ℤ) (dfov : Bool) (C nc : ℕ) (lt : ℕ → ℕ)
    (k : ℕ) (s : ProjZSt) : ProjZSt :=
  projPhaseFillZ C nc lt k (projPhaseFlushZ dfov nc lt k (projPhaseComputeZ f C k s))

/-- Full zarr-mode run of `proc_proj_parallel`: the loop
`for k in range(ntchunk+2)` (line 323). -/
def projRunZ (f : List ℤ → List ℤ) (dfov : Bool) (C nc : ℕ) (lt : ℕ → ℕ)
    (data : List ℤ) : ProjZSt :=
  (List.range (C + 2)).foldl (fun s k => projStepZ f dfov C nc lt k s) (projInitZ nc data)

/-- Returned array of `proc_proj_parallel` (line 349): `res`, which is the
input array itself unless `file_type == 'double_fov'` (lines 299-305). -/
def procProjZ (f : List ℤ → List ℤ) (dfov : Bool) (C nc : ℕ) (lt : ℕ → ℕ)
    (data : List ℤ) : List ℤ :=
  if dfov then (projRunZ f dfov C nc lt data).sep else (projRunZ f dfov C nc lt data).arr

/-- Claim C1 (code_bug evidence): the out-of-core projection pipeline with
the identity stage function does not reproduce its source.  With two chunks
of length 1 (`lchunk 2 1 = [1, 1]`) and source `[5, 7]`, the fill of chunk
1 targets the out-of-range slot view `data_gpu[1][1:2]` (line 339), chunk 1
is never transferred, and the destination ends as `[5, 0]` instead of
`[5, 7]`. -/
theorem c1_zarr_proj_roundtrip_fails :
    procProjZ (fun x => x) false 2 1 (lchunk 2 1) [5, 7] = [5, 0]
  ∧ procProjZ (fun x => x) false 2 1 (lchunk 2 1) [5, 7] ≠ [5, 7] := by
  decide

theorem projStepZ_sep (f : List ℤ → List ℤ) (C nc : ℕ) (lt : ℕ → ℕ) (k : ℕ) (s : ProjZSt) :
    (projStepZ f false C nc lt k s).sep = s.sep := by
  unfold projStepZ projPhaseFillZ projPhaseFlushZ projPhaseComputeZ
  repeat' split
  all_goals first | rfl | simp_all

/-- Destination indices written by the Store of iteration `k` (line 332):
`res[(k-2)*ncproj : (k-2)*ncproj + ltchunk[k-2]]`. -/
def projStoreIdx (nc : ℕ) (lt : ℕ → ℕ) (k : ℕ) : Finset ℕ :=
  Finset.Ico ((k - 2) * nc) ((k - 2) * nc + lt (k - 2))

/-- Source indices read by the Load of iteration `k` (line 339):
`data[ncproj*k : ncproj*k + ltchunk[k]]`. -/
def projLoadIdx (nc : ℕ) (lt : ℕ → ℕ) (k : ℕ) : Finset ℕ :=
  Finset.Ico (nc * k) (nc * k + lt k)

/-- Claim C9: when `file_type != 'double_fov'`, the projection pipeline's
destination is the input array itself — the returned array is the `arr`
field that the Stores overwrite in place, and the separately allocated
destination is never touched; the in-place operation is race-free because
at every iteration `k` where a Store and a Load are both enqueued, the
range written (chunk `k-2`) and the range read (chunk `k`) are disjoint. -/
theorem c9_inplace_race_free (f : List ℤ → List ℤ) (C nc : ℕ) (lt : ℕ → ℕ)
    (data : List ℤ) :
    procProjZ f false C nc lt data = (projRunZ f false C nc lt data).arr
  ∧ (projRunZ f false C nc lt data).sep = List.replicate data.length 0
  ∧ (∀ k, 1 < k → k < C → lt (k - 2) ≤ nc →
      Disjoint (projStoreIdx nc lt k) (projLoadIdx nc lt k)) := by
  refine ⟨rfl, ?_, ?_⟩
  · unfold projRunZ
    exact foldl_proj_inv (fun s => s.sep) _ (fun s k => projStepZ_sep f C nc lt k s) _ _
  · intro k hk2 hkC hlt
    rw [Finset.disjoint_left]
    intro x hx
    rw [projStoreIdx, Finset.mem_Ico] at hx
    rw [projLoadIdx, Finset.mem_Ico]
    have h1 : (k - 2) * nc + lt (k - 2) ≤ (k - 1) * nc := by
      have e2 : k - 1 = (k - 2) + 1 := by omega
      rw [e2, Nat.succ_mul]
      omega
    have h2 : (k - 1) * nc ≤ k * nc := Nat.mul_le_mul_right nc (by omega)
    have h3 : k * nc = nc * k := Nat.mul_comm k nc
    omega

theorem c9_inplace_race_free_witness :
    procProjZ (fun x => x) false 3 2 (lchunk 5 2) [1, 2, 3, 4, 5] =
      (projRunZ (fun x => x) false 3 2 (lchunk 5 2) [1, 2, 3, 4, 5]).arr
  ∧ (projRunZ (fun x => x) false 3 2 (lchunk 5 2) [1, 2, 3, 4, 5]).sep =
      List.replicate 5 (0 : ℤ)
  ∧ Disjoint (projStoreIdx 2 (lchunk 5 2) 2) (projLoadIdx 2 (lchunk 5 2) 2) := by
  have h := c9_inplace_race_free (fun x => x) 3 2 (lchunk 5 2) [1, 2, 3, 4, 5]
  exact ⟨h.1, h.2.1, h.2.2 2 (by decide) (by decide) (by decide)⟩

/-!
Model of `read_data_parallel` (lines 191-213).  The destination buffer is
`np.zeros` over the full shape; the leading (projection) dimension of
extent `E` is divided among `nthreads` workers with per-worker length
`lchunk = ceil(E / nthreads)` (line 199); worker `k` covers rows
`[k*lchunk, min((k+1)*lchunk, E))` and is skipped when that range is empty
(lines 202-205).  Worker bodies run in `threading.Thread`s that are only
joined (lines 210-211): an exception inside a thread target is not
propagated to the joining caller, so a failed worker simply leaves its rows
unwritten and `read_data_parallel` returns the buffer normally.
-/

/-- Per-worker row count, line 199: `int(np.ceil(data.shape[0]/nthreads))`
(exact for the sizes at hand). -/
def rchunk (E N : ℕ) : ℕ :=
  (E + N - 1) / N

/-- Modelled from the spec (§4.6): `reader.read_proj_chunk` is not part of
the excerpted source; per the spec each worker "performs the same
readSlice-style operation into disjoint regions of a shared destination
buffer", i.e. it copies rows `[st, en)` of the source into the same rows of
the destination buffer. -/
def readProjChunk (source : List ℤ) (st en : ℕ) (buf : List ℤ) : List ℤ :=
  writeRange buf st (sliceArr source st (en - st))

/-- Rows handled by worker `k` (lines 202-203):
`[k*lchunk, min((k+1)*lchunk, E))`. -/
def workerRows (N E k : ℕ) : List ℕ :=
  List.range' (k * rchunk E N) (min ((k + 1) * rchunk E N) E - k * rchunk E N)

/-- Full bulk read (lines 198-213): workers with an empty range spawn no
thread (`continue`); a worker whose body fails (`ok k = false`) writes
nothing, and its outcome is discarded by the bare `join()` — the function
returns the buffer unconditionally, with no failure channel. -/
def readDataParallel (N : ℕ) (source : List ℤ) (ok : ℕ → Bool) : List ℤ :=
  (List.range N).foldl
    (fun buf k =>
      let st := k * rchunk source.length N
      let en := min ((k + 1) * rchunk source.length N) source.length
      if en ≤ st then buf else if ok k then readProjChunk source st en buf else buf)
    (List.replicate source.length 0)

/-- Claim C5 (code_bug evidence): a failing worker is not surfaced.  With
two workers over a 4-row source where worker 0 fails, `read_data_parallel`
returns the partially filled buffer `[0, 0, 3, 4]` as if it were valid —
there is no error outcome, and the subsequent pipeline stages proceed. -/
theorem c5_worker_failure_swallowed :
    readDataParallel 2 [1, 2, 3, 4] (fun k => decide (0 < k)) = [0, 0, 3, 4]
  ∧ readDataParallel 2 [1, 2, 3, 4] (fun k => decide (0 < k)) ≠ [1, 2, 3, 4]
  ∧ readDataParallel 2 [1, 2, 3, 4] (fun _ => true) = [1, 2, 3, 4] := by
  decide

theorem range'_partition (l E : ℕ) (hl : 0 < l) :
    ∀ n, (List.range n).flatMap (fun k => List.range' (k * l) (min ((k + 1) * l) E - k * l)) =
      List.range' 0 (min (n * l) E) := by
  intro n
  induction n with
  | zero => simp
  | succ m ih =>
    rw [List.range_succ, List.flatMap_append, ih]
    simp only [List.flatMap_cons, List.flatMap_nil, List.append_nil]
    by_cases hc : E ≤ m * l
    · have e1 : min (m * l) E = E := by omega
      have e2 : min ((m + 1) * l) E = E := by
        have : m * l ≤ (m + 1) * l := Nat.mul_le_mul_right l (by omega)
        omega
      rw [e1, e2]
      have e4 : E - m * l = 0 := by omega
      simp [e4]
    · have hml : m * l < E := by omega
      have e1 : min (m * l) E = m * l := by omega
      have hle : m * l < (m + 1) * l := by
        rw [Nat.succ_mul]
        omega
      rw [e1]
      have happ := List.range'_append_1 0 (m * l) (min ((m + 1) * l) E - m * l)
      simp only [Nat.zero_add] at happ
      rw [happ]
      congr 1
      omega

/-- Claim C6: for every worker count `N ≥ 1` and positive leading extent,
the per-worker row ranges of `read_data_parallel` are contiguous and
pairwise disjoint, workers with empty ranges spawn no thread, and their
concatenation (hence union) is exactly the full source range `[0, extent)`,
also when `N` does not divide the extent. -/
theorem c6_reader_partition (N E : ℕ) (hN : 0 < N) (hE : 0 < E) :
    (List.range N).flatMap (workerRows N E) = List.range E
  ∧ ∀ k1 k2 x, k1 < k2 → x ∈ workerRows N E k1 → x ∉ workerRows N E k2 := by
  have hd : N * rchunk E N + (E + N - 1) % N = E + N - 1 := by
    unfold rchunk
    exact Nat.div_add_mod _ _
  have hm : (E + N - 1) % N < N := Nat.mod_lt _ hN
  have hl : 0 < rchunk E N := by
    rcases Nat.eq_zero_or_pos (rchunk E N) with h0 | h1
    · rw [h0] at hd
      omega
    · exact h1
  have hNl : E ≤ N * rchunk E N := by omega
  constructor
  · have h := range'_partition (rchunk E N) E hl N
    unfold workerRows
    rw [h]
    have e1 : min (N * rchunk E N) E = E := by
      have := Nat.mul_comm N (rchunk E N)
      omega
    rw [e1, List.range_eq_range']
  · intro k1 k2 x h12 hx1
    unfold workerRows at hx1 ⊢
    rw [List.mem_range'_1] at hx1
    rw [List.mem_range'_1]
    have h1 : (k1 + 1) * rchunk E N ≤ k2 * rchunk E N :=
      Nat.mul_le_mul_right _ (by omega)
    omega

theorem c6_reader_partition_witness :
    (List.range 3).flatMap (workerRows 3 100) = List.range 100
  ∧ (5 : ℕ) ∉ workerRows 3 100 1 := by
  have h := c6_reader_partition 3 100 (by decide) (by decide)
  exact ⟨h.1, h.2 0 1 5 (by decide) (by decide)⟩

/-- Indices (along the chunked axis) of the source arrays read by the Load
of chunk `k` (line 276): `data[:, k*ncz : k*ncz+lzchunk[k]]`. -/
def sinoLoadSrcIdx (ncz : ℕ) (lz : ℕ → ℕ) (k : ℕ) : Finset ℕ :=
  Finset.Ico (k * ncz) (k * ncz + lz k)

/-- Indices of the pinned slot written by the Load of chunk `k` (line 276):
`item_pinned[...][k%2, :, :lzchunk[k]]`. -/
def sinoLoadPinIdx (lz : ℕ → ℕ) (k : ℕ) : Finset ℕ :=
  Finset.Ico 0 (lz k)

/-- Indices of the device slot accessed by the host-to-device transfer
(line 279, `.set` of the full pinned slot), by the stage-function call
(line 259, the full slots are passed), and by the device-to-host flush
(line 266, `.get` of the full slot): always the whole allocated slot. -/
def sinoSlotFullIdx (ncz : ℕ) : Finset ℕ :=
  Finset.Ico 0 ncz

/-- Indices of the destination written by the Store of chunk `k`
(line 286): `res[:, k*ncz : k*ncz+lzchunk[k]]`. -/
def sinoStoreDstIdx (ncz : ℕ) (lz : ℕ → ℕ) (k : ℕ) : Finset ℕ :=
  Finset.Ico (k * ncz) (k * ncz + lz k)

/-- Claim C4 counterexample: with the spec's example plan (extent 10,
target 4, chunk lengths `[4, 4, 2]`), the short final chunk 2 has valid
sub-extent `[0, 2)`, but the stage function is invoked on the full slot
(line 259) and the device transfers move the full slot (lines 279 and 266),
so these operations access slot index 2, beyond the chunk's valid
sub-view. -/
theorem c4_subview_cex :
    lchunk 10 4 2 = 2
  ∧ (2 : ℕ) ∈ sinoSlotFullIdx 4
  ∧ (2 : ℕ) ∉ Finset.Ico 0 (lchunk 10 4 2) := by
  decide

/-- Claim C4, amended: for every chunk `k` of a valid plan, the Load reads
the source arrays only inside the chunk range `[k*ncz, k*ncz+len k) ⊆
[0, extent)`, the Store writes the destination only inside the same chunk
range, and the Load writes only the prefix `[0, len k)` of the pinned slot;
the device transfers and the stage-function invocation, however, operate on
the full allocated slot `[0, ncz)` (never beyond the allocation), not on
the `[0, len k)` sub-view. -/
theorem c4_access_bounds (E t k : ℕ) (ht : 0 < t) (hk : k < nchunk E t) :
    sinoLoadSrcIdx t (lchunk E t) k ⊆ Finset.Ico 0 E
  ∧ sinoStoreDstIdx t (lchunk E t) k ⊆ Finset.Ico 0 E
  ∧ sinoLoadPinIdx (lchunk E t) k ⊆ Finset.Ico 0 (lchunk E t k)
  ∧ sinoSlotFullIdx t ⊆ Finset.Ico 0 t
  ∧ 0 < lchunk E t k ∧ lchunk E t k ≤ t := by
  obtain ⟨hpos, hle, hend⟩ := lchunk_spec E t k ht hk
  refine ⟨?_, ?_, ?_, ?_, hpos, hle⟩
  · intro x hx
    rw [sinoLoadSrcIdx, Finset.mem_Ico] at hx
    rw [Finset.mem_Ico]
    omega
  · intro x hx
    rw [sinoStoreDstIdx, Finset.mem_Ico] at hx
    rw [Finset.mem_Ico]
    omega
  · intro x hx
    rw [sinoLoadPinIdx, Finset.mem_Ico] at hx
    rw [Finset.mem_Ico]
    omega
  · intro x hx
    rw [sinoSlotFullIdx, Finset.mem_Ico] at hx
    rw [Finset.mem_Ico]
    omega

theorem c4_access_bounds_witness :
    sinoLoadSrcIdx 4 (lchunk 10 4) 2 ⊆ Finset.Ico 0 10
  ∧ sinoStoreDstIdx 4 (lchunk 10 4) 2 ⊆ Finset.Ico 0 10
  ∧ sinoLoadPinIdx (lchunk 10 4) 2 ⊆ Finset.Ico 0 (lchunk 10 4 2)
  ∧ sinoSlotFullIdx 4 ⊆ Finset.Ico 0 4
  ∧ 0 < lchunk 10 4 2 ∧ lchunk 10 4 2 ≤ 4 :=
  c4_access_bounds 10 4 2 (by decide) (by decide)

/-!
Supporting development for claim C1: on the in-memory branch the pipeline
with the identity stage function does round-trip exactly, for every source
array and every plan produced by the chunk-plan model — the out-of-core
projection branch alone breaks the property (theorem
`c1_zarr_proj_roundtrip_fails`), confirming that line 339 is a slip rather
than the model misreading the scheme.
-/

/-- Identity stage function: `proc_sino` replaced by a stage that returns
its data slot unchanged. -/
def idStage : List ℤ → List ℤ → List ℤ → List ℤ :=
  fun d _ _ => d

/-- State of the in-memory sinogram pipeline after the first `k` loop
iterations, with the chunk plan taken from the spec model. -/
def sinoStateAt (t : ℕ) (data dark flat : List ℤ) (k : ℕ) : SinoSt :=
  (List.range k).foldl
    (fun s j => sinoStepNp idStage (nchunk data.length t) t (lchunk data.length t) j s)
    (sinoInitNp t data dark flat)

theorem sinoStateAt_succ (t : ℕ) (data dark flat : List ℤ) (k : ℕ) :
    sinoStateAt t data dark flat (k + 1) =
      sinoStepNp idStage (nchunk data.length t) t (lchunk data.length t) k
        (sinoStateAt t data dark flat k) := by
  unfold sinoStateAt
  rw [List.range_succ, List.foldl_append]
  rfl

theorem phaseComputeId_spec (C k : ℕ) (s : SinoSt) :
    sinoPhaseCompute idStage C k s =
      { s with gpuRec :=
          if 0 < k ∧ k < C + 1 then
            updSlot s.gpuRec ((k - 1) % 2) (s.gpuData ((k - 1) % 2))
          else s.gpuRec } := by
  unfold sinoPhaseCompute idStage
  by_cases h : 0 < k ∧ k < C + 1 <;> simp [h]

theorem phaseFlush_spec (k : ℕ) (s : SinoSt) :
    sinoPhaseFlushNp k s =
      { s with pinRec :=
          if 1 < k then
            updSlot s.pinRec ((k - 2) % 2) (s.gpuRec ((k - 2) % 2))
          else s.pinRec } := by
  unfold sinoPhaseFlushNp
  by_cases h : 1 < k <;> simp [h]

theorem updSlot_len {s : ℕ → List ℤ} {n : ℕ} (p : ℕ) {v : List ℤ}
    (h : ∀ r, (s r).length = n) (hv : v.length = n) (q : ℕ) :
    (updSlot s p v q).length = n := by
  unfold updSlot
  split
  · exact hv
  · exact h q

theorem sinoStateAt_lens (t : ℕ) (data dark flat : List ℤ) (k : ℕ) :
    (∀ p, ((sinoStateAt t data dark flat k).pinData p).length = t)
  ∧ (∀ p, ((sinoStateAt t data dark flat k).gpuData p).length = t)
  ∧ (∀ p, ((sinoStateAt t data dark flat k).gpuRec p).length = t)
  ∧ (∀ p, ((sinoStateAt t data dark flat k).pinRec p).length = t)
  ∧ (sinoStateAt t data dark flat k).res.length = data.length := by
  induction k with
  | zero =>
    refine ⟨fun p => ?_, fun p => ?_, fun p => ?_, fun p => ?_, ?_⟩ <;>
      simp [sinoStateAt, sinoInitNp]
  | succ n ih =>
    obtain ⟨h1, h2, h3, h4, h5⟩ := ih
    rw [sinoStateAt_succ]
    set s := sinoStateAt t data dark flat n with hs
    unfold sinoStepNp
    rw [phaseComputeId_spec, phaseFlush_spec]
    by_cases hgl : n < nchunk data.length t <;> by_cases hgf : 1 < n <;>
      simp only [sinoPhaseFillNp, sinoPhaseHostCopy, hgl, hgf, if_true, if_false,
        ite_true, ite_false] <;>
      refine ⟨fun p => ?_, fun p => ?_, fun p => ?_, fun p => ?_, ?_⟩ <;>
      first
        | exact h1 p
        | exact h2 p
        | exact h3 p
        | exact h4 p
        | exact h5
        | (rw [writeRange_length]
           exact h5)
        | (refine updSlot_len _ h1 ?_ p
           rw [writeRange_length]
           exact h1 _)
        | (refine updSlot_len _ h2 ?_ p
           rw [writeRange_length]
           exact h1 _)
        | (split
           · exact updSlot_len _ h3 (h2 _) p
           · exact h3 p)
        | (refine updSlot_len _ h4 ?_ p
           split
           · exact updSlot_len _ h3 (h2 _) _
           · exact h3 _)

theorem sinoStateAt_data (t : ℕ) (data dark flat : List ℤ) (k : ℕ) :
    (sinoStateAt t data dark flat k).data = data := by
  unfold sinoStateAt
  exact foldl_proj_inv (fun s => s.data) _
    (fun s j =>
      (sinoStepNp_frame idStage (nchunk data.length t) t (lchunk data.length t) j s).1) _ _

theorem updSlot_same (s : ℕ → List ℤ) (p : ℕ) (v : List ℤ) : updSlot s p v p = v := by
  unfold updSlot
  simp

theorem sliceArr_length (xs : List ℤ) (st len : ℕ) :
    (sliceArr xs st len).length = min len (xs.length - st) := by
  simp [sliceArr]

theorem take_writeRange_zero (dst src : List ℤ) (h : src.length ≤ dst.length) :
    (writeRange dst 0 src).take src.length = src := by
  unfold writeRange
  rw [Nat.sub_zero, List.take_zero, List.nil_append, Nat.zero_add,
    List.take_of_length_le h]
  exact List.take_left' rfl

theorem take_writeRange_zero' (dst src : List ℤ) (n : ℕ) (hn : src.length = n)
    (h : src.length ≤ dst.length) : (writeRange dst 0 src).take n = src := by
  subst hn
  exact take_writeRange_zero dst src h

theorem updSlot_ne {s : ℕ → List ℤ} {p q : ℕ} (v : List ℤ) (h : q ≠ p) :
    updSlot s p v q = s q := by
  unfold updSlot
  rw [if_neg h]

/-- Effect of one pipeline iteration on the device input buffer when a Load
is enqueued (`k < C`): slot `k % 2` receives the pinned slot overwritten in
its prefix by chunk `k` of the source. -/
theorem sinoStep_gpuData_eq (C t' : ℕ) (lz : ℕ → ℕ) (k : ℕ) (s : SinoSt) (h : k < C) :
    (sinoStepNp idStage C t' lz k s).gpuData =
      updSlot s.gpuData (k % 2)
        (writeRange (s.pinData (k % 2)) 0 (sliceArr s.data (k * t') (lz k))) := by
  unfold sinoStepNp sinoPhaseHostCopy sinoPhaseFillNp sinoPhaseFlushNp sinoPhaseCompute
  repeat' split
  all_goals first | omega | rfl

/-- Effect of one pipeline iteration on the device output buffer when the
identity stage is enqueued (`1 ≤ k ≤ C`): slot `(k-1) % 2` receives the
device input slot of the same parity. -/
theorem sinoStep_gpuRec_eq (C t' : ℕ) (lz : ℕ → ℕ) (k : ℕ) (s : SinoSt)
    (h1 : 0 < k) (h2 : k < C + 1) :
    (sinoStepNp idStage C t' lz k s).gpuRec =
      updSlot s.gpuRec ((k - 1) % 2) (s.gpuData ((k - 1) % 2)) := by
  unfold sinoStepNp sinoPhaseHostCopy sinoPhaseFillNp sinoPhaseFlushNp sinoPhaseCompute idStage
  repeat' split
  all_goals first | omega | rfl

/-- Effect of one pipeline iteration on the result array when a Store is
enqueued (`k ≥ 2`): the valid prefix of output slot `(k-2) % 2` (flushed to
the pinned slot earlier in the same iteration, before the compute of this
iteration touched the other parity) lands at the range of chunk `k-2`. -/
theorem phaseCompute_res (f : List ℤ → List ℤ → List ℤ → List ℤ) (C k : ℕ) (s : SinoSt) :
    (sinoPhaseCompute f C k s).res = s.res := by
  unfold sinoPhaseCompute
  split <;> rfl

theorem phaseCompute_gpuRec_ne (f : List ℤ → List ℤ → List ℤ → List ℤ) (C k : ℕ)
    (s : SinoSt) (h : 1 < k) :
    (sinoPhaseCompute f C k s).gpuRec ((k - 2) % 2) = s.gpuRec ((k - 2) % 2) := by
  unfold sinoPhaseCompute
  split
  · exact updSlot_ne _ (by omega)
  · rfl

theorem phaseFlush_res (k : ℕ) (s : SinoSt) : (sinoPhaseFlushNp k s).res = s.res := by
  unfold sinoPhaseFlushNp
  split <;> rfl

theorem phaseFlush_pinRec_pos (k : ℕ) (s : SinoSt) (h : 1 < k) :
    (sinoPhaseFlushNp k s).pinRec =
      updSlot s.pinRec ((k - 2) % 2) (s.gpuRec ((k - 2) % 2)) := by
  unfold sinoPhaseFlushNp
  rw [if_pos h]

theorem phaseFill_res (C t' : ℕ) (lz : ℕ → ℕ) (k : ℕ) (s : SinoSt) :
    (sinoPhaseFillNp C t' lz k s).res = s.res := by
  unfold sinoPhaseFillNp
  split <;> rfl

theorem phaseFill_pinRec (C t' : ℕ) (lz : ℕ → ℕ) (k : ℕ) (s : SinoSt) :
    (sinoPhaseFillNp C t' lz k s).pinRec = s.pinRec := by
  unfold sinoPhaseFillNp
  split <;> rfl

theorem phaseHost_res_pos (t' : ℕ) (lz : ℕ → ℕ) (k : ℕ) (s : SinoSt) (h : 1 < k) :
    (sinoPhaseHostCopy t' lz k s).res =
      writeRange s.res ((k - 2) * t') ((s.pinRec ((k - 2) % 2)).take (lz (k - 2))) := by
  unfold sinoPhaseHostCopy
  rw [if_pos h]

theorem phaseHost_res_neg (t' : ℕ) (lz : ℕ → ℕ) (k : ℕ) (s : SinoSt) (h : ¬ 1 < k) :
    (sinoPhaseHostCopy t' lz k s).res = s.res := by
  unfold sinoPhaseHostCopy
  rw [if_neg h]

theorem sinoStep_res_eq (C t' : ℕ) (lz : ℕ → ℕ) (k : ℕ) (s : SinoSt) (h : 1 < k) :
    (sinoStepNp idStage C t' lz k s).res =
      writeRange s.res ((k - 2) * t') ((s.gpuRec ((k - 2) % 2)).take (lz (k - 2))) := by
  unfold sinoStepNp
  rw [phaseHost_res_pos _ _ _ _ h, phaseFill_res, phaseFill_pinRec,
    phaseFlush_res, phaseFlush_pinRec_pos _ _ h, updSlot_same,
    phaseCompute_res, phaseCompute_gpuRec_ne _ _ _ _ h]

theorem sinoStep_res_eq_neg (C t' : ℕ) (lz : ℕ → ℕ) (k : ℕ) (s : SinoSt) (h : ¬ 1 < k) :
    (sinoStepNp idStage C t' lz k s).res = s.res := by
  unfold sinoStepNp sinoPhaseHostCopy sinoPhaseFillNp sinoPhaseFlushNp sinoPhaseCompute
  repeat' split
  all_goals first | omega | rfl

/-- After iteration `k` (with `k < C`), device input slot `k % 2` holds
chunk `k` of the source in its valid prefix. -/
theorem sinoStateAt_gpuData (t : ℕ) (ht : 0 < t) (data dark flat : List ℤ) (k : ℕ)
    (hk : k < nchunk data.length t) :
    ((sinoStateAt t data dark flat (k + 1)).gpuData (k % 2)).take
        (lchunk data.length t k) =
      sliceArr data (k * t) (lchunk data.length t k) := by
  obtain ⟨h1, h2, h3, h4, h5⟩ := sinoStateAt_lens t data dark flat k
  have hdata := sinoStateAt_data t data dark flat k
  have hspec := lchunk_spec data.length t k ht hk
  have hsl : (sliceArr data (k * t) (lchunk data.length t k)).length
      = lchunk data.length t k := by
    rw [sliceArr_length]
    omega
  rw [sinoStateAt_succ, sinoStep_gpuData_eq _ _ _ _ _ hk, updSlot_same, hdata]
  refine take_writeRange_zero' _ _ _ hsl ?_
  rw [hsl, h1]
  omega

/-- After iteration `k` (with `1 ≤ k ≤ C`), device output slot `(k-1) % 2`
holds chunk `k-1` in its valid prefix: the identity stage copied the input
slot loaded one iteration earlier. -/
theorem sinoStateAt_gpuRec (t : ℕ) (ht : 0 < t) (data dark flat : List ℤ) (k : ℕ)
    (h1k : 1 ≤ k) (hk : k ≤ nchunk data.length t) :
    ((sinoStateAt t data dark flat (k + 1)).gpuRec ((k - 1) % 2)).take
        (lchunk data.length t (k - 1)) =
      sliceArr data ((k - 1) * t) (lchunk data.length t (k - 1)) := by
  have hprev := sinoStateAt_gpuData t ht data dark flat (k - 1) (by omega)
  have hk1 : k - 1 + 1 = k := by omega
  rw [hk1] at hprev
  rw [sinoStateAt_succ, sinoStep_gpuRec_eq _ _ _ _ _ (by omega) (by omega), updSlot_same]
  exact hprev

theorem nchunk_bounds (E t : ℕ) (ht : 0 < t) (hE : 0 < E) :
    E ≤ nchunk E t * t ∧ (nchunk E t - 1) * t < E := by
  have hd : t * nchunk E t + (E + t - 1) % t = E + t - 1 := by
    unfold nchunk
    exact Nat.div_add_mod _ _
  have hm : (E + t - 1) % t < t := Nat.mod_lt _ ht
  have hcomm : t * nchunk E t = nchunk E t * t := Nat.mul_comm _ _
  have hC1 : 0 < nchunk E t := by
    by_contra h0
    push_neg at h0
    have hz : nchunk E t = 0 := by omega
    rw [hz, Nat.mul_zero] at hd
    omega
  have hmul : nchunk E t * t = (nchunk E t - 1) * t + t := by
    have h2 : nchunk E t - 1 + 1 = nchunk E t := by omega
    calc nchunk E t * t = (nchunk E t - 1 + 1) * t := by rw [h2]
    _ = (nchunk E t - 1) * t + t := Nat.succ_mul _ _
  omega

theorem res_write_step (data : List ℤ) (e len : ℕ) (h : e + len ≤ data.length) :
    writeRange (data.take e ++ List.replicate (data.length - e) 0) e
        (sliceArr data e len) =
      data.take (e + len) ++ List.replicate (data.length - (e + len)) 0 := by
  have hsl : (sliceArr data e len).length = len := by
    rw [sliceArr_length]
    omega
  have htl : (data.take e).length = e := by
    simp [List.length_take]
    omega
  have hdl : (data.take e ++ List.replicate (data.length - e) (0 : ℤ)).length
      = data.length := by
    simp [List.length_append, htl]
    omega
  have c1 : (List.take e data ++ List.replicate (data.length - e) (0 : ℤ)).take e
      = List.take e data := List.take_left' htl
  have c2 : (sliceArr data e len).take (data.length - e) = sliceArr data e len :=
    List.take_of_length_le (by rw [hsl]; omega)
  have c3 : (List.take e data ++ List.replicate (data.length - e) (0 : ℤ)).drop
        (e + (sliceArr data e len).length)
      = List.replicate (data.length - (e + len)) (0 : ℤ) := by
    rw [List.drop_append_eq_append_drop, htl, hsl,
      List.drop_eq_nil_of_le (by rw [htl]; omega), List.drop_replicate, List.nil_append]
    congr 1
    omega
  unfold writeRange
  rw [hdl, c1, c2, c3, List.take_add]
  simp [sliceArr, List.append_assoc]

/-- Contents of the result array after the first `k` iterations: the
chunks flushed so far (`0 .. k-3`) hold the corresponding prefix of the
source; the rest still holds the initial zeros. -/
theorem sinoStateAt_res (t : ℕ) (ht : 0 < t) (data dark flat : List ℤ) :
    ∀ k, k ≤ nchunk data.length t + 2 →
      (sinoStateAt t data dark flat k).res =
        data.take (min ((k - 2) * t) data.length) ++
          List.replicate (data.length - min ((k - 2) * t) data.length) 0 := by
  intro k
  induction k with
  | zero =>
    intro hn
    simp [sinoStateAt, sinoInitNp]
  | succ n ih =>
    intro hn
    have hres := ih (by omega)
    rw [sinoStateAt_succ]
    by_cases hg : 1 < n
    · have hrecContent := sinoStateAt_gpuRec t ht data dark flat (n - 1)
        (by omega) (by omega)
      have hn1 : n - 1 + 1 = n := by omega
      have hn2 : n - 1 - 1 = n - 2 := by omega
      rw [hn1, hn2] at hrecContent
      rw [sinoStep_res_eq _ _ _ _ _ hg, hrecContent, hres]
      have hj := lchunk_spec data.length t (n - 2) ht (by omega)
      have e1 : min ((n - 2) * t) data.length = (n - 2) * t := by omega
      have hEpos : 0 < data.length := by omega
      have hb := nchunk_bounds data.length t ht hEpos
      have e2 : min ((n + 1 - 2) * t) data.length
          = (n - 2) * t + lchunk data.length t (n - 2) := by
        have hn3 : n + 1 - 2 = n - 1 := by omega
        have hsm : (n - 1) * t = (n - 2) * t + t := by
          have h4 : n - 1 = (n - 2) + 1 := by omega
          rw [h4, Nat.succ_mul]
        by_cases hc : n - 1 < nchunk data.length t
        · have hj2 := lchunk_spec data.length t (n - 1) ht hc
          have hlz : lchunk data.length t (n - 2) = t := by
            unfold lchunk
            rw [if_pos (by omega : n - 2 + 1 < nchunk data.length t)]
          rw [hn3, hsm, hlz]
          omega
        · have hlz : lchunk data.length t (n - 2)
              = data.length - (nchunk data.length t - 1) * t := by
            unfold lchunk
            rw [if_neg (by omega : ¬ n - 2 + 1 < nchunk data.length t)]
          have heq : n - 2 = nchunk data.length t - 1 := by omega
          have hge : nchunk data.length t * t ≤ (n - 1) * t :=
            Nat.mul_le_mul_right t (by omega)
          rw [hn3, hlz, heq]
          omega
      rw [e1, e2]
      exact res_write_step data ((n - 2) * t) (lchunk data.length t (n - 2)) (by omega)
    · rw [sinoStep_res_eq_neg _ _ _ _ _ hg, hres]
      have e1 : n - 2 = 0 := by omega
      have e2 : n + 1 - 2 = n - 1 := by omega
      have e3 : n - 1 = 0 ∨ n - 1 = n - 2 := by omega
      rcases e3 with h3 | h3
      · rw [e2, h3, e1]
      · rw [e2, h3]

/-- Supporting theorem for claim C1: the in-memory sinogram pipeline with
the identity stage function reproduces its source array exactly, for every
source array, every positive target chunk length, and the spec's chunk
plan — including plans whose final chunk is shorter than the others. -/
theorem sino_np_identity_roundtrip (t : ℕ) (ht : 0 < t) (data dark flat : List ℤ) :
    (sinoRunNp idStage (nchunk data.length t) t (lchunk data.length t)
        data dark flat).res = data := by
  have h := sinoStateAt_res t ht data dark flat (nchunk data.length t + 2) (le_refl _)
  have hrun : sinoRunNp idStage (nchunk data.length t) t (lchunk data.length t)
      data dark flat = sinoStateAt t data dark flat (nchunk data.length t + 2) := rfl
  rw [hrun, h]
  have e0 : nchunk data.length t + 2 - 2 = nchunk data.length t := by omega
  rw [e0]
  by_cases hE : data.length = 0
  · have hnil : data = [] := List.eq_nil_of_length_eq_zero hE
    subst hnil
    simp
  · have hb := nchunk_bounds data.length t ht (by omega)
    have e1 : min (nchunk data.length t * t) data.length = data.length := by omega
    rw [e1]
    simp [List.take_length]
